import Mathlib

/-!
Verification of the per-table storage engine of ProjectDB (`src/table.ts`,
class `OptimaTable`): JavaScript value model, type checkers, row validators,
equality indexes, and the `Get` / `Insert` / `Update` / `Delete` operations.

JavaScript runtime values are modelled by the inductive `JValue`; a JS object
is an insertion-ordered association list with unique keys, a JS `Map` is an
insertion-ordered association list keyed by SameValueZero equality (which is
structural equality here, since the model does not distinguish -0 and NaN is
a dedicated constructor equal to itself).  Reference equality on objects is
approximated by structural equality.  Stateful methods become explicit state
passing on `TableState`; methods that throw return `Except`.
-/

namespace ProjectDB

/-- A JavaScript number: NaN, the two infinities, or a finite value
(modelled as a rational; the double-precision grid is not modelled). -/
inductive JNum where
  | nan
  | posInf
  | negInf
  | fin (q : ℚ)
deriving DecidableEq

mutual
/-- A JavaScript runtime value.  `vUndefined` is `undefined` (also used for a
property read that misses); `vObj` is an object as an insertion-ordered
field list. -/
inductive JValue where
  | vUndefined
  | vNull
  | vNum (n : JNum)
  | vStr (s : String)
  | vBool (b : Bool)
  | vArr (elems : JValueList)
  | vObj (fields : JFieldList)

/-- A list of JS values (the contents of a JS array). -/
inductive JValueList where
  | nil
  | cons (head : JValue) (tail : JValueList)

/-- The ordered own fields of a JS object. -/
inductive JFieldList where
  | nil
  | cons (key : String) (val : JValue) (tail : JFieldList)
end

deriving instance DecidableEq for JValue
deriving instance DecidableEq for JValueList
deriving instance DecidableEq for JFieldList

/-- Table rows live at the top level as association lists; `toFields`
embeds such a row into a `JValue` object. -/
abbrev Row := List (String × JValue)

def toFields : Row → JFieldList
  | [] => .nil
  | (k, v) :: ps => .cons k v (toFields ps)

/-- A row as a JS object value. -/
def objOf (r : Row) : JValue := .vObj (toFields r)

/-- Property read `row[k]`: first entry with key `k`, else `undefined`. -/
def getVal (r : Row) (k : String) : JValue :=
  match r.find? (fun p => p.1 = k) with
  | some p => p.2
  | none => .vUndefined

/-- Models `Object.prototype.hasOwnProperty.call(r, k)` (a key explicitly holding
`undefined` is still present). -/
def hasKey (r : Row) (k : String) : Bool :=
  r.any (fun p => p.1 = k)

/-- Property write `r[k] = v`: replace in place if the key exists,
else append (JS objects keep insertion order). -/
def objSet : Row → String → JValue → Row
  | [], k, v => [(k, v)]
  | p :: ps, k, v => if p.1 = k then (p.1, v) :: ps else p :: objSet ps k v

/-- Models `Object.assign(target, src)`: copy every own enumerable key of `src`,
including keys whose value is `undefined`. -/
def objAssign (target : Row) (src : Row) : Row :=
  src.foldl (fun t p => objSet t p.1 p.2) target

/-- Strict equality `===` on numbers: `NaN` is not equal to anything. -/
def strictEqNum : JNum → JNum → Bool
  | .nan, _ => false
  | _, .nan => false
  | .posInf, .posInf => true
  | .negInf, .negInf => true
  | .fin a, .fin b => a = b
  | _, _ => false

/-- Strict equality `===`.  For non-numbers this is structural equality
(the model's stand-in for JS reference equality on objects). -/
def strictEq : JValue → JValue → Bool
  | .vNum a, .vNum b => strictEqNum a b
  | a, b => a = b

/-- SameValueZero equality, used by `Map` keys and `Array.prototype.includes`:
like `===` except that `NaN` equals `NaN`.  In this model (no `-0`) it is
plain structural equality. -/
def svzEq (a b : JValue) : Bool := a = b

def isUndefined : JValue → Bool
  | .vUndefined => true
  | _ => false

/-- JS truthiness. -/
def truthy : JValue → Bool
  | .vUndefined => false
  | .vNull => false
  | .vBool b => b
  | .vNum .nan => false
  | .vNum (.fin q) => !(q = 0 : Bool)
  | .vNum _ => true
  | .vStr s => !(s = "" : Bool)
  | .vArr _ => true
  | .vObj _ => true

/-! ## Type checkers (`TypeChecker` record in `table.ts`) -/

/-- One character class of the email regex: `[^\s@]` (JS `\s` is
approximated by `Char.isWhitespace`). -/
def emailChar (c : Char) : Bool := !c.isWhitespace && !(c = '@')

/-- Models `/^[^\s@]+@[^\s@]+\.[^\s@]+$/`: exactly one `@`; a non-empty local part;
after the `@` a non-empty run, a dot, and another non-empty run (the regex
classes themselves admit further dots). -/
def emailMatches (s : String) : Bool :=
  match s.splitOn "@" with
  | [a, r] =>
      !(a = "" : Bool) && a.toList.all emailChar && r.toList.all emailChar &&
        ((r.toList.drop 1).dropLast.any (fun c => c = '.'))
  | _ => false

def digits2 (s : String) : Bool := s.length = 2 && s.toList.all Char.isDigit

def natOfDigits (s : String) : Nat := s.foldl (fun n c => n * 10 + c.toNat - 48) 0

def isLeapYear (y : Nat) : Bool := (y % 4 = 0 && !(y % 100 = 0)) || y % 400 = 0

def daysInMonth (y m : Nat) : Nat :=
  if m = 2 then (if isLeapYear y then 29 else 28)
  else if m = 4 || m = 6 || m = 9 || m = 11 then 30
  else 31

/-- Models `/^\d{4}-\d{2}-\d{2}$/`. -/
def dateShape (s : String) : Bool :=
  match s.splitOn "-" with
  | [y, m, d] => y.length = 4 && y.toList.all Char.isDigit && digits2 m && digits2 d
  | _ => false

/-- Modelled from the spec: the host builtin `Date.parse` is not part of the
repository; on `YYYY-MM-DD` strings it yields `NaN` exactly when the string
is not a valid calendar date, which is what this predicate captures. -/
def isoDateOk (s : String) : Bool :=
  match s.splitOn "-" with
  | [y, m, d] =>
      let yn := natOfDigits y
      let mn := natOfDigits m
      let dn := natOfDigits d
      1 ≤ mn && mn ≤ 12 && 1 ≤ dn && dn ≤ daysInMonth yn mn
  | _ => false

/-- Shape of a `HH:MM` / `HH:MM:SS` / `HH:MM:SS.mmm` time, optionally
`Z`-suffixed. -/
def timeShape (s : String) : Bool :=
  let t := if s.endsWith "Z" then s.dropRight 1 else s
  match t.splitOn ":" with
  | [h, m] => digits2 h && digits2 m && natOfDigits h ≤ 23 && natOfDigits m ≤ 59
  | [h, m, sec] =>
      digits2 h && digits2 m && natOfDigits h ≤ 23 && natOfDigits m ≤ 59 &&
        (match sec.splitOn "." with
         | [ss] => digits2 ss && natOfDigits ss ≤ 59
         | [ss, ms] => digits2 ss && natOfDigits ss ≤ 59 && !(ms = "" : Bool) && ms.toList.all Char.isDigit
         | _ => false)
  | _ => false

/-- Modelled from the spec: the host builtin `Date.parse` on arbitrary
strings, restricted here to the ISO 8601 forms (`YYYY-MM-DD`, optionally
followed by `T` and a time). -/
def dateTimeParses (s : String) : Bool :=
  match s.splitOn "T" with
  | [d] => dateShape d && isoDateOk d
  | [d, t] => dateShape d && isoDateOk d && timeShape t
  | _ => false

def isHexChar (c : Char) : Bool :=
  c.isDigit || ('a' ≤ c.toLower && c.toLower ≤ 'f')

def hexRun (s : String) (n : Nat) : Bool :=
  s.length = n && s.toList.all isHexChar

/-- Models `/^[0-9a-f]{8}-[0-9a-f]{4}-[1-5][0-9a-f]{3}-[89ab][0-9a-f]{3}-[0-9a-f]{12}$/i`. -/
def uuidMatches (s : String) : Bool :=
  match s.splitOn "-" with
  | [a, b, c, d, e] =>
      hexRun a 8 && hexRun b 4 && hexRun c 4 && hexRun d 4 && hexRun e 12 &&
        (match c.toList with
         | v :: _ => ('1' ≤ v && v ≤ '5')
         | [] => false) &&
        (match d.toList with
         | v :: _ => (v.toLower = '8' || v.toLower = '9' || v.toLower = 'a' || v.toLower = 'b')
         | [] => false)
  | _ => false

/-- Models `INT`: `Number.isInteger(val)`. -/
def intChecker : JValue → Bool
  | .vNum (.fin q) => q.den = 1
  | _ => false

/-- Models `EMAIL`: string matching the email regex. -/
def emailChecker : JValue → Bool
  | .vStr s => emailMatches s
  | _ => false

/-- Models `TEXT`: `typeof val === "string"`. -/
def textChecker : JValue → Bool
  | .vStr _ => true
  | _ => false

/-- Models `FLOAT`: `typeof val === "number" && !Number.isNaN(val)`.  Note that
this accepts the infinities. -/
def floatChecker : JValue → Bool
  | .vNum .nan => false
  | .vNum _ => true
  | _ => false

/-- Models `JSON`: `typeof val === "object" && val !== null`. -/
def jsonChecker : JValue → Bool
  | .vObj _ => true
  | .vArr _ => true
  | _ => false

/-- Models `BOOLEAN`: `typeof val === "boolean"`. -/
def boolChecker : JValue → Bool
  | .vBool _ => true
  | _ => false

/-- Models `DATE`: string matching `/^\d{4}-\d{2}-\d{2}$/` and parseable. -/
def dateChecker : JValue → Bool
  | .vStr s => dateShape s && isoDateOk s
  | _ => false

/-- Models `DATETIME`: string with `!isNaN(Date.parse(val))`. -/
def dateTimeChecker : JValue → Bool
  | .vStr s => dateTimeParses s
  | _ => false

/-- Models `UUID`: string matching the canonical UUID regex. -/
def uuidChecker : JValue → Bool
  | .vStr s => uuidMatches s
  | _ => false

/-- Models `PASSWORD`: `typeof val === "string" && val.length > 0`. -/
def passwordChecker : JValue → Bool
  | .vStr s => s.length > 0
  | _ => false

/-- Models `ARRAY`: `Array.isArray(val)`. -/
def arrayChecker : JValue → Bool
  | .vArr _ => true
  | _ => false

/-- The `TypeChecker` record: a lookup from the field-type string to its
predicate; `none` models an absent key (`TypeChecker[Type]` undefined). -/
def typeChecker (t : String) : Option (JValue → Bool) :=
  if t = "INT" then some intChecker
  else if t = "EMAIL" then some emailChecker
  else if t = "TEXT" then some textChecker
  else if t = "FLOAT" then some floatChecker
  else if t = "JSON" then some jsonChecker
  else if t = "BOOLEAN" then some boolChecker
  else if t = "DATE" then some dateChecker
  else if t = "DATETIME" then some dateTimeChecker
  else if t = "UUID" then some uuidChecker
  else if t = "PASSWORD" then some passwordChecker
  else if t = "ARRAY" then some arrayChecker
  else none

/-! ## Schema and row validators -/

/-- A schema field (`SchemaField`).  `NotNull` and `Default` are arbitrary
JS values because the schema builder stores `null` for omitted options while
raw schemas omit the key (`vUndefined`); the code distinguishes the two
(`field.Default !== undefined`, `field.NotNull === false`). `Enum` is `none`
when absent/null and `some` for an array.  The source field `Type` is spelt
`Typ` because `Type` is reserved in Lean. -/
structure Field where
  Typ : String
  NotNull : JValue := .vUndefined
  Default : JValue := .vUndefined
  Enum : Option (List JValue) := none
deriving DecidableEq

/-- A table schema: ordered mapping column name to field. -/
abbrev Schema := List (String × Field)

def schemaKeys (s : Schema) : List String := s.map Prod.fst

def findField (s : Schema) (k : String) : Option Field :=
  (s.find? (fun p => p.1 = k)).map (·.2)

/-- One iteration of the fill loop of `InsertChecker`: take the supplied
value if the key is present (`hasOwnProperty`), else the `Default` when
that is not `undefined`, else `null` when `NotNull === false`, else leave
the column absent. -/
def fillStep (Values : Row) (acc : Row) (kv : String × Field) : Row :=
  if hasKey Values kv.1 then objSet acc kv.1 (getVal Values kv.1)
  else if !isUndefined kv.2.Default then objSet acc kv.1 kv.2.Default
  else if kv.2.NotNull = JValue.vBool false then objSet acc kv.1 .vNull
  else acc

/-- The fill loop of `InsertChecker` over all schema columns. -/
def fillRow (Values : Row) (Sch : Schema) : Row :=
  Sch.foldl (fillStep Values) []

/-- Models `const checker = TypeChecker[Type]; if (checker && !checker(value))`:
an unknown type string has no checker and passes vacuously. -/
def typeOkB (f : Field) (v : JValue) : Bool :=
  match typeChecker f.Typ with
  | some ch => ch v
  | none => true

/-- Models `if (EnumValues && !EnumValues.includes(value))`: membership by
SameValueZero when an enum array is declared. -/
def enumOkB (f : Field) (v : JValue) : Bool :=
  match f.Enum with
  | some es => es.any (fun e => svzEq e v)
  | none => true

/-- The per-column validation of `InsertChecker`: `undefined`/`null` are
rejected exactly when `NotNull` is truthy, any other value must pass the
type checker of the declared type (when one exists) and be a member of the
declared enum (when one exists, by SameValueZero). -/
def checkField (f : Field) (value : JValue) : Bool :=
  match value with
  | .vUndefined => !truthy f.NotNull
  | .vNull => !truthy f.NotNull
  | v => typeOkB f v && enumOkB f v

/-- Models `InsertChecker`: `none` stands for both the `null` (unknown key) and
`false` (validation failure) returns, which `Insert` treats alike. -/
def insertChecker (Values : Row) (Sch : Schema) : Option Row :=
  if Values.any (fun p => !(schemaKeys Sch).contains p.1) then none
  else
    let rowToInsert := fillRow Values Sch
    if Sch.all (fun kv => checkField kv.2 (getVal rowToInsert kv.1)) then some rowToInsert
    else none

/-- The per-key test of `UpdateChecker`: an explicitly `undefined` value is
skipped; `null` is rejected when `NotNull` is truthy; any other value goes
through the type/enum checks. -/
def updateCheckEntry (Sch : Schema) (p : String × JValue) : Bool :=
  match findField Sch p.1 with
  | none => false
  | some f =>
      match p.2 with
      | .vUndefined => true
      | .vNull => !truthy f.NotNull
      | v => typeOkB f v && enumOkB f v

/-- Models `UpdateChecker`: validates only the supplied keys and returns the input
map unchanged on success (`none` again covers the `null` and `false`
returns, which `Update` treats alike). -/
def updateChecker (Values : Row) (Sch : Schema) : Option Row :=
  if Values.any (fun p => !(schemaKeys Sch).contains p.1) then none
  else if Values.all (updateCheckEntry Sch) then some Values
  else none

/-! ## JSON serialization (`JSON.stringify`, used by the `Unique` dedup) -/

def escChar (c : Char) : String :=
  if c = '"' then "\\\"" else if c = '\\' then "\\\\" else String.singleton c

def quoteStr (s : String) : String :=
  "\"" ++ String.join (s.toList.map escChar) ++ "\""

/-- Display of a finite JS number.  JS prints decimals; this model prints
the rational in `num/den` form for non-integers — only determinism and
injectivity of the serialization matter to the development. -/
def ratRepr (q : ℚ) : String :=
  if q.den = 1 then toString q.num else toString q.num ++ "/" ++ toString q.den

mutual
/-- Models `JSON.stringify`: `none` models the `undefined` result (an `undefined`
value has no JSON form); `NaN` and the infinities serialize as `null`. -/
def serializeJV : JValue → Option String
  | .vUndefined => none
  | .vNull => some "null"
  | .vNum .nan => some "null"
  | .vNum .posInf => some "null"
  | .vNum .negInf => some "null"
  | .vNum (.fin q) => some (ratRepr q)
  | .vBool b => some (if b then "true" else "false")
  | .vStr s => some (quoteStr s)
  | .vArr xs => some ("[" ++ String.intercalate "," (serializeArrParts xs) ++ "]")
  | .vObj fs => some ("\x7b" ++ String.intercalate "," (serializeObjParts fs) ++ "\x7d")

/-- Array elements: an unserializable element becomes `null`. -/
def serializeArrParts : JValueList → List String
  | .nil => []
  | .cons x t => ((serializeJV x).getD "null") :: serializeArrParts t

/-- Object fields: a field with an unserializable value is omitted. -/
def serializeObjParts : JFieldList → List String
  | .nil => []
  | .cons k v t =>
      match serializeJV v with
      | some s => (quoteStr k ++ ":" ++ s) :: serializeObjParts t
      | none => serializeObjParts t
end

/-- Models `JSON.stringify(row)` for a table row (always an object, hence always
serializable). -/
def serializeRow (r : Row) : String :=
  (serializeJV (objOf r)).getD "null"

/-! ## JS `<` comparison (used by the `OrderBy` sort) -/

/-- Display of a JS number by `toString`. -/
def numToStr : JNum → String
  | .nan => "NaN"
  | .posInf => "Infinity"
  | .negInf => "-Infinity"
  | .fin q => ratRepr q

mutual
/-- Models `ToPrimitive` with no hint, as invoked by `<`: arrays become their
`join(",")` string, plain objects become `"[object Object]"`, primitives
are returned unchanged. -/
def primOf : JValue → JValue
  | .vArr xs => .vStr (String.intercalate "," (arrJoinParts xs))
  | .vObj _ => .vStr "[object Object]"
  | v => v

def arrJoinParts : JValueList → List String
  | .nil => []
  | .cons x t => arrElemStr x :: arrJoinParts t

/-- Models `Array.prototype.join` element display: `null`/`undefined` become
the empty string. -/
def arrElemStr : JValue → String
  | .vUndefined => ""
  | .vNull => ""
  | .vNum n => numToStr n
  | .vStr s => s
  | .vBool b => if b then "true" else "false"
  | .vArr xs => String.intercalate "," (arrJoinParts xs)
  | .vObj _ => "[object Object]"
end

def allDigits (s : String) : Bool := s.toList.all Char.isDigit

/-- Models `ToNumber` on an unsigned decimal literal (`"12"`, `"12."`, `".5"`). -/
def parseUnsigned (t : String) : Option ℚ :=
  match t.splitOn "." with
  | [a] => if (!(a = "" : Bool) && allDigits a : Bool) then some (natOfDigits a) else none
  | [a, b] =>
      if ((!(a = "" : Bool) || !(b = "" : Bool)) && allDigits a && allDigits b : Bool) then
        some ((natOfDigits a : ℚ) + (natOfDigits b : ℚ) / ((10 : ℚ) ^ b.length))
      else none
  | _ => none

/-- Models `ToNumber` on a string: the empty (or all-blank) string is `0`,
decimal literals and the `Infinity` spellings convert, anything else is
`NaN` (exotic literal forms such as hex are not modelled). -/
def strToNum (s : String) : JNum :=
  let t := s.trim
  if t = "" then .fin 0
  else if t = "Infinity" || t = "+Infinity" then .posInf
  else if t = "-Infinity" then .negInf
  else
    match t.toList with
    | '-' :: rest =>
        match parseUnsigned (String.mk rest) with
        | some q => .fin (-q)
        | none => .nan
    | '+' :: rest =>
        match parseUnsigned (String.mk rest) with
        | some q => .fin q
        | none => .nan
    | _ =>
        match parseUnsigned t with
        | some q => .fin q
        | none => .nan

/-- Models `ToNumber` on a primitive value. -/
def toNumberPrim : JValue → JNum
  | .vUndefined => .nan
  | .vNull => .fin 0
  | .vBool b => .fin (if b then 1 else 0)
  | .vNum n => n
  | .vStr s => strToNum s
  | .vArr _ => .nan
  | .vObj _ => .nan

/-- Numeric `<`: any comparison against `NaN` is false. -/
def jnumLtB : JNum → JNum → Bool
  | .nan, _ => false
  | _, .nan => false
  | .negInf, .negInf => false
  | .negInf, _ => true
  | _, .negInf => false
  | .posInf, _ => false
  | .fin _, .posInf => true
  | .fin a, .fin b => a < b

/-- The abstract relational comparison `a < b`: string comparison when both
primitives are strings, numeric comparison otherwise. -/
def jsLtB (a b : JValue) : Bool :=
  match primOf a, primOf b with
  | .vStr s1, .vStr s2 => s1 < s2
  | p1, p2 => jnumLtB (toNumberPrim p1) (toNumberPrim p2)

/-! ## Indexes and table state -/

abbrev Bucket := List Nat

/-- A per-column index: a JS `Map` from value to positions, as an
insertion-ordered association list with SameValueZero keys. -/
abbrev JMap := List (JValue × Bucket)

def jmapGet (m : JMap) (k : JValue) : Option Bucket :=
  (m.find? (fun p => svzEq p.1 k)).map (·.2)

def jmapSet : JMap → JValue → Bucket → JMap
  | [], k, b => [(k, b)]
  | p :: ps, k, b => if svzEq p.1 k then (p.1, b) :: ps else p :: jmapSet ps k b

/-- Models `_indexes`: one `Map` per column name. -/
abbrev Indexes := List (String × JMap)

def idxGet (ix : Indexes) (c : String) : Option JMap :=
  (ix.find? (fun p => p.1 = c)).map (·.2)

def idxSet : Indexes → String → JMap → Indexes
  | [], c, m => [(c, m)]
  | p :: ps, c, m => if p.1 = c then (p.1, m) :: ps else p :: idxSet ps c m

/-- A precalculated extend relationship (`ExtendRelationship`). -/
structure ExtendRel where
  myColumn : String
  targetColumn : String
  referenceType : String
deriving DecidableEq

/-- The mutable state of one `OptimaTable`: the row sequence, the
per-column indexes, the schema, the precalculated relationships, the row
sets of the sibling tables reachable through `_TablesRef` (as returned by
their argumentless `Get()`), and the persistence-policy bookkeeping touched
by `markDirty`. -/
structure TableState where
  Data : List Row
  indexes : Indexes
  schema : Schema
  rels : List (String × ExtendRel)
  tablesRef : List (String × List Row)
  dirty : Bool
  changeCount : Nat

def relsGet (rels : List (String × ExtendRel)) (t : String) : Option ExtendRel :=
  (rels.find? (fun p => p.1 = t)).map (·.2)

def tablesRefGet (refs : List (String × List Row)) (t : String) : Option (List Row) :=
  (refs.find? (fun p => p.1 = t)).map (·.2)

/-- Models `getByIndex`: empty when the column has no index, else the bucket for
the value (`|| []`). -/
def getByIndex (st : TableState) (column : String) (value : JValue) : List Nat :=
  match idxGet st.indexes column with
  | none => []
  | some m => (jmapGet m value).getD []

/-- Models `buildIndexes`: one empty `Map` per schema column, then one pass over
the rows appending each position to the bucket of the row's value in every
column (an absent column is indexed under `undefined` here). -/
def buildIndexes (st : TableState) : TableState :=
  let cols := schemaKeys st.schema
  let base : Indexes := cols.map (fun c => (c, ([] : JMap)))
  let ix := (List.range st.Data.length).foldl
    (fun ixAcc i =>
      let row := st.Data.getD i []
      cols.foldl
        (fun ix2 c =>
          match idxGet ix2 c with
          | none => ix2
          | some m =>
              let v := getVal row c
              idxSet ix2 c (jmapSet m v ((jmapGet m v).getD [] ++ [i])))
        ixAcc)
    base
  { st with indexes := ix }

inductive IdxOp where
  | ins
  | upd
  | del
deriving DecidableEq

/-- Models `updateIndexForColumn`: on insert, append the new position under the
row's value (skipping `undefined`); on update, remove the position from the
old value's bucket and append it under the new value (each side skipped
when `undefined`); on delete, remove the position from the old value's
bucket.  Reaching the body marks the table dirty; the early return for a
column without an index does not. -/
def updateIndexForColumn (st : TableState) (op : IdxOp) (column : String)
    (rowIndex : Nat) (oldValue newValue : JValue) : TableState :=
  match idxGet st.indexes column with
  | none => st
  | some m =>
      let m2 :=
        match op with
        | .ins =>
            let value := getVal (st.Data.getD rowIndex []) column
            if isUndefined value then m
            else jmapSet m value ((jmapGet m value).getD [] ++ [rowIndex])
        | .upd =>
            let m1 :=
              if isUndefined oldValue then m
              else
                match jmapGet m oldValue with
                | some oldIndices => jmapSet m oldValue (oldIndices.erase rowIndex)
                | none => m
            if isUndefined newValue then m1
            else jmapSet m1 newValue ((jmapGet m1 newValue).getD [] ++ [rowIndex])
        | .del =>
            match jmapGet m oldValue with
            | some indices => jmapSet m oldValue (indices.erase rowIndex)
            | none => m
      { st with indexes := idxSet st.indexes column m2,
                dirty := true, changeCount := st.changeCount + 1 }

/-! ## The `Get` pipeline -/

/-- The conjunctive equality predicate of a `Matches` map. -/
def matchesRow (m : Row) (row : Row) : Bool :=
  m.all (fun p => strictEq (getVal row p.1) p.2)

/-- Options of `Get` (`QueryOptions`).  `OrderBy` is the pair
`(Column, Direction)`. -/
structure QueryOptions where
  Columns : Option (List String) := none
  Limit : Option Int := none
  Offset : Option Int := none
  Unique : Bool := false
  OrderBy : Option (String × String) := none
  Matches : Option Row := none
  Extend : Option (List String) := none

/-- Step 1 of `Get`: with a single-entry `Matches` on an indexed column,
resolve via `getByIndex` and read `this.Data[index]` for each position (a
stale out-of-range position reads as an empty object here where JS yields
`undefined`); otherwise a linear conjunctive filter. -/
def matchStage (st : TableState) (m? : Option Row) : List Row :=
  match m? with
  | none => st.Data
  | some m =>
      match m with
      | [(k, v)] =>
          match idxGet st.indexes k with
          | some _ => (getByIndex st k v).map (fun i => st.Data.getD i [])
          | none => st.Data.filter (fun row => strictEq (getVal row k) v)
      | _ => st.Data.filter (matchesRow m)

/-- Projection of one row onto a column list (a missing column is copied
as `undefined`). -/
def projectRow (cols : List String) (row : Row) : Row :=
  cols.foldl (fun acc c => objSet acc c (getVal row c)) []

/-- Step 2 of `Get`: column projection when a non-empty list is given. -/
def projectStage (cols? : Option (List String)) (l : List Row) : List Row :=
  match cols? with
  | none => l
  | some cols => if cols.isEmpty then l else l.map (projectRow cols)

/-- The `Unique` filter: keep a row whose serialized form has not been seen
yet. -/
def dedupAux : List Row → List String → List Row
  | [], _ => []
  | r :: rs, seen =>
      let key := serializeRow r
      if seen.contains key then dedupAux rs seen
      else r :: dedupAux rs (key :: seen)

def dedupBySerialize (l : List Row) : List Row := dedupAux l []

/-- Step 3 of `Get`. -/
def uniqueStage (u : Bool) (l : List Row) : List Row :=
  if u then dedupBySerialize l else l

/-- The `OrderBy` comparator. -/
def cmpRows (col dir : String) (a b : Row) : Int :=
  if jsLtB (getVal a col) (getVal b col) then (if dir = "ASC" then -1 else 1)
  else if jsLtB (getVal b col) (getVal a col) then (if dir = "ASC" then 1 else -1)
  else 0

/-- Step 4 of `Get`: a stable sort by the comparator when an `OrderBy` with
a truthy column name is given. -/
def orderStage (ob : Option (String × String)) (l : List Row) : List Row :=
  match ob with
  | none => l
  | some (col, dir) =>
      if col = "" then l
      else l.mergeSort (fun a b => cmpRows col dir a b ≤ 0)

/-- The one-time join map of an `Extend` step: from the referenced table's
join-column value to one row object (`ONE`, later rows overwrite) or to the
array of all its rows (`MANY`, in table order). -/
abbrev JoinMap := List (JValue × JValue)

def jmGet (m : JoinMap) (k : JValue) : Option JValue :=
  (m.find? (fun p => svzEq p.1 k)).map (·.2)

def jmSet : JoinMap → JValue → JValue → JoinMap
  | [], k, v => [(k, v)]
  | p :: ps, k, v => if svzEq p.1 k then (p.1, v) :: ps else p :: jmSet ps k v

def appendJVList : JValueList → JValue → JValueList
  | .nil, v => .cons v .nil
  | .cons h t, v => .cons h (appendJVList t v)

/-- One row of the referenced table entering the join map: `ONE` overwrites
the bucket with this row, `MANY` appends the row to the bucket array
(creating it first when absent). -/
def bjmStep (rel : ExtendRel) (m : JoinMap) (row : Row) : JoinMap :=
  let key := getVal row rel.targetColumn
  if rel.referenceType = "ONE" then jmSet m key (objOf row)
  else
    match jmGet m key with
    | none => jmSet m key (.vArr (.cons (objOf row) .nil))
    | some (.vArr xs) => jmSet m key (.vArr (appendJVList xs (objOf row)))
    | some _ => m

def buildJoinMap (rel : ExtendRel) (joined : List Row) : JoinMap :=
  joined.foldl (bjmStep rel) []

/-- One `Extend` name: a missing relationship is a hard error; a missing
sibling table silently leaves the result untouched; otherwise every result
row gets the key `"$" + name` holding the join-map hit or `null`. -/
def extendStep (st : TableState) (result : List Row) (tname : String) :
    Except String (List Row) :=
  match relsGet st.rels tname with
  | none => .error "Extend Error : Relation Undefined"
  | some rel =>
      match tablesRefGet st.tablesRef tname with
      | none => .ok result
      | some joined =>
          let joinMap := buildJoinMap rel joined
          .ok (result.map (fun old =>
            let key := getVal old rel.myColumn
            objSet old ("$" ++ tname) ((jmGet joinMap key).getD .vNull)))

/-- Step 5 of `Get`: the `Extend` names in order. -/
def extendStage (st : TableState) (names? : Option (List String))
    (result : List Row) : Except String (List Row) :=
  match names? with
  | none => .ok result
  | some ns => ns.foldlM (extendStep st) result

/-- Models `safeOffset`: a non-negative numeric offset, else `0`. -/
def safeOffset (off : Option Int) : Nat :=
  match off with
  | some o => if 0 ≤ o then o.toNat else 0
  | none => 0

/-- Models `safeLimit`: `safeOffset + Limit` when `Limit` is a positive number,
else `undefined`. -/
def safeLimitEnd (off lim : Option Int) : Option Nat :=
  match lim with
  | some li => if 0 < li then some (safeOffset off + li.toNat) else none
  | none => none

/-- Models `Array.prototype.slice(start, end?)` for in-range arguments. -/
def jsSlice (start : Nat) (stop : Option Nat) (l : List α) : List α :=
  match stop with
  | none => l.drop start
  | some e => (l.take e).drop start

/-- Models `Get`: the five pipeline stages, then the offset/limit slice.  The
method never writes to the table (`emit` only notifies listeners), so it
returns the state unchanged alongside the result. -/
def tableGet (st : TableState) (opts : QueryOptions) :
    Except String (List Row) × TableState :=
  let r1 := matchStage st opts.Matches
  let r2 := projectStage opts.Columns r1
  let r3 := uniqueStage opts.Unique r2
  let r4 := orderStage opts.OrderBy r3
  let ext := extendStage st opts.Extend r4
  (ext.map (fun r => jsSlice (safeOffset opts.Offset) (safeLimitEnd opts.Offset opts.Limit) r), st)

/-- The result of `Get` before the final slice (stages 1–5). -/
def preSliceResult (st : TableState) (opts : QueryOptions) :
    Except String (List Row) :=
  extendStage st opts.Extend
    (orderStage opts.OrderBy
      (uniqueStage opts.Unique
        (projectStage opts.Columns (matchStage st opts.Matches))))

/-! ## Mutations -/

/-- Models `Insert`: validate, push the canonical row, then update every column's
index for the new position; on a falsy checker result throw with the table
untouched. -/
def tableInsert (st : TableState) (Values : Row) : Except String Row × TableState :=
  match insertChecker Values st.schema with
  | none => (.error "Insert failed: Values do not match table schema.", st)
  | some rowToInsert =>
      let insertIndex := st.Data.length
      let st1 := { st with Data := st.Data ++ [rowToInsert] }
      let st2 := (schemaKeys st.schema).foldl
        (fun s c => updateIndexForColumn s .ins c insertIndex .vUndefined .vUndefined) st1
      (.ok rowToInsert, st2)

structure DeleteOptions where
  Matches : Option Row := none
  Limit : Option Int := none
  Offset : Option Int := none

/-- The first `Matches`/`Values` key that is not a schema column, if any. -/
def firstUnknownKey (schemaKs : List String) (m : Row) : Option (String × JValue) :=
  m.find? (fun p => !schemaKs.contains p.1)

/-- Models `indexOf` on the row sequence (JS compares object references; the model
compares structurally). -/
def listIndexOf (l : List Row) (r : Row) : Option Nat :=
  l.findIdx? (fun x => x = r)

/-- Models `Delete`: validate the predicate keys, select by predicate and
offset/limit, then for each selected row locate its current position,
remove that position from every column's index under the row's old values,
and splice the row out.  The returned count is the size of the selection,
fixed before the removal loop. -/
def tableDelete (st : TableState) (opts : DeleteOptions) : Except String Int × TableState :=
  let schemaKs := schemaKeys st.schema
  match (match opts.Matches with
         | some m => firstUnknownKey schemaKs m
         | none => none) with
  | some bad =>
      (.error ("Delete failed: Key \x27" ++ bad.1 ++ "\x27 does not exist in table schema."), st)
  | none =>
      let filtered :=
        match opts.Matches with
        | some m => st.Data.filter (matchesRow m)
        | none => st.Data
      let itemsToDelete := jsSlice (safeOffset opts.Offset) (safeLimitEnd opts.Offset opts.Limit) filtered
      let deletedCount : Int := itemsToDelete.length
      let st2 := itemsToDelete.foldl
        (fun s item =>
          match listIndexOf s.Data item with
          | none => s
          | some index =>
              let s1 := schemaKs.foldl
                (fun sAcc c => updateIndexForColumn sAcc .del c index (getVal item c) .vUndefined) s
              { s1 with Data := s1.Data.eraseIdx index })
        st
      (.ok deletedCount, st2)

structure UpdateOptions where
  Matches : Option Row := none
  Values : Row
  Limit : Option Int := none
  Offset : Option Int := none

/-- Models `Update`: validate the predicate keys and patch keys against the
schema, run `UpdateChecker`, select by predicate and offset/limit, then for
each selected row found by `indexOf`: reindex every patch column whose
value strictly changes, and apply the patch with `Object.assign` (which
copies keys holding `undefined`). -/
def tableUpdate (st : TableState) (opts : UpdateOptions) : Except String Int × TableState :=
  let schemaKs := schemaKeys st.schema
  match (match opts.Matches with
         | some m => firstUnknownKey schemaKs m
         | none => none) with
  | some bad =>
      (.error ("Update failed: Match key \x27" ++ bad.1 ++ "\x27 does not exist in table schema."), st)
  | none =>
  match firstUnknownKey schemaKs opts.Values with
  | some bad =>
      (.error ("Update failed: Value key \x27" ++ bad.1 ++ "\x27 does not exist in table schema."), st)
  | none =>
  match updateChecker opts.Values st.schema with
  | none => (.error "Update failed: Values do not match table schema.", st)
  | some validatedValues =>
      let filtered :=
        match opts.Matches with
        | some m => st.Data.filter (matchesRow m)
        | none => st.Data
      let itemsToUpdate := jsSlice (safeOffset opts.Offset) (safeLimitEnd opts.Offset opts.Limit) filtered
      let final := itemsToUpdate.foldl
        (fun (acc : TableState × Int) item =>
          let s := acc.1
          match listIndexOf s.Data item with
          | none => acc
          | some index =>
              let s1 := validatedValues.foldl
                (fun s2 kv =>
                  let oldValue := getVal (s2.Data.getD index []) kv.1
                  if strictEq oldValue kv.2 then s2
                  else updateIndexForColumn s2 .upd kv.1 index oldValue kv.2)
                s
              ({ s1 with
                  Data := s1.Data.set index (objAssign (s1.Data.getD index []) validatedValues) },
               acc.2 + 1))
        (st, 0)
      (.ok final.2, final.1)

/-! ## Derived notions used to state the claims -/

deriving instance DecidableEq for Except

/-- An integer as a JS number value. -/
def jint (n : Int) : JValue := .vNum (.fin (n : ℚ))

/-- The positions whose stored row currently holds `v` in column `c` —
what a consistent index bucket ought to contain. -/
def positionsHolding (data : List Row) (c : String) (v : JValue) : List Nat :=
  (List.range data.length).filter (fun i => svzEq (getVal (data.getD i []) c) v)

/-- The rows of a referenced table whose join column holds `key`
(SameValueZero, as the join `Map` does). -/
def joinMatches (joined : List Row) (rel : ExtendRel) (key : JValue) : List Row :=
  joined.filter (fun row => svzEq (getVal row rel.targetColumn) key)

def ofListJV : List JValue → JValueList
  | [] => .nil
  | v :: vs => .cons v (ofListJV vs)

def jvlConcat : JValueList → JValueList → JValueList
  | .nil, t => t
  | .cons h t1, t => .cons h (jvlConcat t1 t)

/-- Push each value of the list onto the end of a JS array in order. -/
def jvlAppendList : JValueList → List JValue → JValueList
  | xs, [] => xs
  | xs, v :: vs => jvlAppendList (appendJVList xs v) vs

/-- Spec, §4.1: "if `values` supplies it, take as-is". -/
def suppliedBy (values : Row) (k : String) : Bool := hasKey values k

/-- Spec, §4.1: "else if the field has a default, use it" — the code reads
this as `Default !== undefined`. -/
def hasDeclaredDefault (f : Field) : Bool := !isUndefined f.Default

/-- Spec, §4.1: "else if nullable, use `null`" — a column explicitly
marked `notNull: false`. -/
def isNullableMarked (f : Field) : Bool := f.NotNull = JValue.vBool false

/-- The canonical-row assembly exactly as the spec words it (§4.1): value
as supplied when present, else the declared default when one exists, else
`null` when the column is nullable, else left absent. -/
def specAssembleRow (values : Row) (Sch : Schema) : Row :=
  Sch.foldl
    (fun acc kv =>
      if suppliedBy values kv.1 then objSet acc kv.1 (getVal values kv.1)
      else if hasDeclaredDefault kv.2 then objSet acc kv.1 kv.2.Default
      else if isNullableMarked kv.2 then objSet acc kv.1 .vNull
      else acc)
    []

/-- The slice of the spec's pagination clause (§8): drop the clamped
offset, then take `Limit` elements when `Limit` is a positive number, else
everything. -/
def claimSlice (off lim : Option Int) (l : List Row) : List Row :=
  let o := safeOffset off
  match lim with
  | some li => if 0 < li then (l.drop o).take li.toNat else l.drop o
  | none => l.drop o

/-! ## Concrete scenario states (used by the claim witnesses) -/

def mkState (data : List Row) (sch : Schema) : TableState :=
  buildIndexes
    { Data := data, indexes := [], schema := sch, rels := [], tablesRef := [],
      dirty := false, changeCount := 0 }

def intNN : Field := { Typ := "INT", NotNull := .vBool true }

def c1Schema : Schema := [("A", intNN)]

/-- Two rows `{A:1}`, `{A:2}` with freshly built indexes. -/
def c1State : TableState := mkState [[("A", jint 1)], [("A", jint 2)]] c1Schema

def c1DeleteOpts : DeleteOptions := { Matches := some [("A", jint 1)] }

/-- The state after `Delete({Matches:{A:1}})` removes the row at
position 0. -/
def c1After : TableState := (tableDelete c1State c1DeleteOpts).2

def c3FloatField : Field := { Typ := "FLOAT", NotNull := .vBool true }

/-- The spec's `Users` schema (§8): `ID: INT notNull`,
`Email: EMAIL`, `Password: PASSWORD notNull`. -/
def usersSchema : Schema :=
  [("ID", intNN),
   ("Email", { Typ := "EMAIL", NotNull := .vBool false }),
   ("Password", { Typ := "PASSWORD", NotNull := .vBool true })]

/-- The spec's rejected insert: non-integer `ID`. -/
def c4BadValues : Row :=
  [("ID", .vStr "x"), ("Email", .vStr "a@b.com"), ("Password", .vStr "s")]

def c4State : TableState :=
  mkState [[("ID", jint 1), ("Email", .vStr "a@b.com"), ("Password", .vStr "secret")]] usersSchema

/-- The spec's join example (§8): `Profile.UserID` references `Users.ID`
with cardinality `ONE`. -/
def profileRel : ExtendRel :=
  { myColumn := "ID", targetColumn := "UserID", referenceType := "ONE" }

def profileRow : Row := [("UserID", jint 1), ("Data", .vObj .nil)]

def c5State : TableState :=
  { Data := [[("ID", jint 1)], [("ID", jint 2)]], indexes := [], schema := c1Schema,
    rels := [("Profile", profileRel)], tablesRef := [("Profile", [profileRow])],
    dirty := false, changeCount := 0 }

def c6Opts : QueryOptions := { Extend := some ["Missing"] }

def c7NullableText : Field := { Typ := "TEXT", NotNull := .vBool false }

def c7Schema : Schema := [("ID", intNN), ("Note", c7NullableText)]

def c8State : TableState :=
  mkState [[("A", jint 1), ("B", jint 1)], [("A", jint 1), ("B", jint 2)]] c1Schema

def c8Opts : QueryOptions := { Columns := some ["A"], Unique := true }

def c10State : TableState := mkState [[("A", jint 7)]] c1Schema

/-! ## General lemmas -/

theorem getVal_objSet_self (r : Row) (k : String) (v : JValue) :
    getVal (objSet r k v) k = v := by
  induction r with
  | nil => simp [objSet, getVal]
  | cons p ps ih =>
      by_cases h : p.1 = k
      · simp [objSet, h, getVal, List.find?]
      · simpa [objSet, h, getVal, List.find?] using ih

theorem getVal_objSet_ne (r : Row) (k k2 : String) (v : JValue) (h : k2 ≠ k) :
    getVal (objSet r k v) k2 = getVal r k2 := by
  induction r with
  | nil => simp [objSet, getVal, List.find?, Ne.symm h]
  | cons p ps ih =>
      by_cases hp : p.1 = k
      · subst hp
        simp [objSet, getVal, List.find?, Ne.symm h]
      · by_cases hp2 : p.1 = k2
        · simp [objSet, hp, getVal, List.find?, hp2, h]
        · simpa [objSet, hp, getVal, List.find?, hp2] using ih

theorem jmGet_jmSet_self (m : JoinMap) (k v : JValue) :
    jmGet (jmSet m k v) k = some v := by
  induction m with
  | nil => simp [jmSet, jmGet, List.find?, svzEq]
  | cons p ps ih =>
      by_cases h : p.1 = k
      · simp [jmSet, jmGet, List.find?, svzEq, h]
      · simpa [jmSet, jmGet, List.find?, svzEq, h] using ih

theorem jmGet_jmSet_ne (m : JoinMap) (k k2 v : JValue) (h : k2 ≠ k) :
    jmGet (jmSet m k v) k2 = jmGet m k2 := by
  induction m with
  | nil => simp [jmSet, jmGet, List.find?, svzEq, Ne.symm h]
  | cons p ps ih =>
      by_cases hp : p.1 = k
      · subst hp
        simp [jmSet, jmGet, List.find?, svzEq, Ne.symm h]
      · by_cases hp2 : p.1 = k2
        · simp [jmSet, jmGet, List.find?, svzEq, hp, hp2, h]
        · simpa [jmSet, jmGet, List.find?, svzEq, hp, hp2] using ih

theorem updateIndexForColumn_Data (s : TableState) (op : IdxOp) (c : String)
    (i : Nat) (o n : JValue) : (updateIndexForColumn s op c i o n).Data = s.Data := by
  unfold updateIndexForColumn
  cases idxGet s.indexes c <;> simp

/-- The code's `slice(safeOffset, safeLimit)` computes exactly the slice
the spec describes. -/
theorem jsSlice_eq_claimSlice (off lim : Option Int) (l : List Row) :
    jsSlice (safeOffset off) (safeLimitEnd off lim) l = claimSlice off lim l := by
  unfold jsSlice safeLimitEnd claimSlice
  cases lim with
  | none => simp
  | some li =>
      by_cases h : 0 < li
      · simp only [h, if_pos]
        rw [List.drop_take, Nat.add_sub_cancel_left]
      · simp [h]

/-! ## Claim theorems -/

/-- C9: every `Get`, whatever combination of `Matches`, `Columns`,
`Unique`, `OrderBy`, `Extend`, `Offset` and `Limit` it carries, leaves the
table state — in particular the stored row sequence `Data` — unchanged:
the pipeline only builds new lists and row copies and never writes a table
field. -/
theorem c9_get_leaves_state_unchanged (st : TableState) (opts : QueryOptions) :
    (tableGet st opts).2 = st := rfl

/-- C2: the sequence returned by `Get` equals the fully filtered,
projected, de-duplicated, ordered and extended result (`preSliceResult`)
sliced exactly as the spec words it: dropped by the offset (a negative or
absent offset counts as 0) and truncated to `Limit` elements only when
`Limit` is a positive number. -/
theorem c2_pagination (st : TableState) (opts : QueryOptions) :
    (tableGet st opts).1 =
      (preSliceResult st opts).map (claimSlice opts.Offset opts.Limit) := by
  unfold tableGet preSliceResult
  cases h : extendStage st opts.Extend
      (orderStage opts.OrderBy
        (uniqueStage opts.Unique
          (projectStage opts.Columns (matchStage st opts.Matches)))) with
  | error e => simp [h, Except.map]
  | ok l => simp [h, Except.map, jsSlice_eq_claimSlice]

/-- C1 fails on the code: deleting the row `{A:1}` at position 0 of
`[{A:1},{A:2}]` leaves the index bucket for `A = 2` still holding the old
position `[1]`, while the row now sits at position 0 — `getByIndex`
disagrees with the positions actually holding the value, immediately after
a `Delete` at a non-final position. -/
theorem c1_delete_leaves_stale_index :
    (tableDelete c1State c1DeleteOpts).1 = .ok 1 ∧
    c1After.Data = [[("A", jint 2)]] ∧
    getByIndex c1After "A" (jint 2) = [1] ∧
    positionsHolding c1After.Data "A" (jint 2) = [0] := by
  refine ⟨by decide, by decide, by decide, by decide⟩

/-- C3 as stated is false: the `FLOAT` checker is
`typeof val === "number" && !Number.isNaN(val)`, which accepts the
non-finite numbers `Infinity` and `-Infinity` instead of rejecting them. -/
theorem c3_float_accepts_infinity :
    typeChecker "FLOAT" = some floatChecker ∧
    floatChecker (.vNum .posInf) = true ∧
    floatChecker (.vNum .negInf) = true := ⟨rfl, rfl, rfl⟩

/-- C3 amended: the `FLOAT` checker accepts a value exactly when it is a
number other than `NaN` — the infinities included — and consequently
inserting `Infinity` into a `FLOAT` column passes validation rather than
failing it. -/
theorem c3_float_checker_amended :
    typeChecker "FLOAT" = some floatChecker ∧
    (∀ v, floatChecker v = true ↔ ∃ n, v = JValue.vNum n ∧ n ≠ JNum.nan) ∧
    insertChecker [("x", .vNum .posInf)] [("x", c3FloatField)] =
      some [("x", .vNum .posInf)] := by
  refine ⟨rfl, ?_, by decide⟩
  intro v
  constructor
  · intro hv
    cases v with
    | vNum n =>
        cases n with
        | nan => simp [floatChecker] at hv
        | posInf => exact ⟨.posInf, rfl, by simp⟩
        | negInf => exact ⟨.negInf, rfl, by simp⟩
        | fin q => exact ⟨.fin q, rfl, by simp⟩
    | vUndefined => simp [floatChecker] at hv
    | vNull => simp [floatChecker] at hv
    | vStr s => simp [floatChecker] at hv
    | vBool b => simp [floatChecker] at hv
    | vArr xs => simp [floatChecker] at hv
    | vObj fs => simp [floatChecker] at hv
  · rintro ⟨n, rfl, hn⟩
    cases n with
    | nan => exact absurd rfl hn
    | posInf => rfl
    | negInf => rfl
    | fin q => rfl

/-- C4: when the insert checker rejects the value map — unknown key,
missing `notNull` column, type mismatch or enum violation all make it
return a falsy result — `Insert` raises the validation error and the table
state (row sequence, indexes, dirty bookkeeping) is exactly the state
before the call. -/
theorem c4_insert_failure_no_state_change (st : TableState) (values : Row)
    (h : insertChecker values st.schema = none) :
    (tableInsert st values).1 = .error "Insert failed: Values do not match table schema." ∧
    (tableInsert st values).2 = st := by
  unfold tableInsert
  rw [h]
  exact ⟨rfl, rfl⟩

/-- Witness for C4, the spec's rejection scenario: inserting
`{ID:"x", Email:"a@b.com", Password:"s"}` into `Users` fails validation
(non-integer `ID`) and leaves the one-row table state untouched. -/
theorem c4_insert_failure_witness :
    (tableInsert c4State c4BadValues).1 =
      .error "Insert failed: Values do not match table schema." ∧
    (tableInsert c4State c4BadValues).2 = c4State := by
  have h : insertChecker c4BadValues c4State.schema = none := by decide
  exact ⟨(c4_insert_failure_no_state_change c4State c4BadValues h).1,
         (c4_insert_failure_no_state_change c4State c4BadValues h).2⟩

/-- The only error `extendStep` can produce is the relation-undefined one. -/
theorem extendStep_error_eq (st : TableState) (res : List Row) (t : String)
    (e : String) (h : extendStep st res t = .error e) :
    e = "Extend Error : Relation Undefined" := by
  unfold extendStep at h
  cases hr : relsGet st.rels t with
  | none =>
      rw [hr] at h
      exact (Except.error.injEq _ _).mp h.symm
  | some rel =>
      rw [hr] at h
      cases ht : tablesRefGet st.tablesRef t with
      | none => rw [ht] at h; cases h
      | some joined => rw [ht] at h; cases h

/-- Folding `extendStep` over a name list that contains a name with no
precomputed relationship always ends in the relation-undefined error. -/
theorem extendStage_error_of_missing (st : TableState) (ns : List String)
    (tname : String) (hmem : tname ∈ ns) (hrel : relsGet st.rels tname = none) :
    ∀ res : List Row,
      ns.foldlM (extendStep st) res = .error "Extend Error : Relation Undefined" := by
  induction ns with
  | nil => cases hmem
  | cons h0 t ih =>
      intro res
      rw [List.foldlM_cons]
      cases he : extendStep st res h0 with
      | error e =>
          have : e = "Extend Error : Relation Undefined" :=
            extendStep_error_eq st res h0 e he
          subst this
          rfl
      | ok res2 =>
          rcases List.mem_cons.mp hmem with heq | hmem2
          · subst heq
            unfold extendStep at he
            rw [hrel] at he
            cases he
          · simpa using ih hmem2 res2

/-- C6: a `Get` whose `Extend` list contains a name with no precomputed
relationship raises the "Relation Undefined" error — fatal to the whole
call rather than a silent skip. -/
theorem c6_extend_relation_undefined (st : TableState) (opts : QueryOptions)
    (ns : List String) (tname : String) (hext : opts.Extend = some ns)
    (hmem : tname ∈ ns) (hrel : relsGet st.rels tname = none) :
    (tableGet st opts).1 = .error "Extend Error : Relation Undefined" := by
  have hfold := extendStage_error_of_missing st ns tname hmem hrel
  unfold tableGet extendStage
  rw [hext]
  simp only [hfold, Except.map]

/-- Witness for C6: on a table whose only relationship is `Profile`,
`Get({Extend:["Missing"]})` is the relation-undefined error. -/
theorem c6_extend_relation_undefined_witness :
    (tableGet c5State c6Opts).1 = .error "Extend Error : Relation Undefined" :=
  c6_extend_relation_undefined c5State c6Opts ["Missing"] "Missing" rfl
    (by decide) (by decide)

/-- A column found by `findField` is one of the schema keys. -/
theorem findField_mem_keys (Sch : Schema) (k : String) (f : Field)
    (hf : findField Sch k = some f) : k ∈ schemaKeys Sch := by
  induction Sch with
  | nil => simp [findField] at hf
  | cons p ps ih =>
      by_cases h : p.1 = k
      · simp [schemaKeys, h]
      · have hf2 : findField ps k = some f := by
          simpa [findField, List.find?_cons, h] using hf
        have hmem := ih hf2
        simp [schemaKeys] at hmem ⊢
        exact Or.inr hmem

/-- C10: a patch that maps a schema column explicitly to `undefined` is
accepted by the update checker no matter the column's `notNull` flag or
type (the checker skips `undefined` values), while `null` for a `notNull`
column is rejected; and applying such a patch through `Update` stores
`undefined` in the row for that column — `Object.assign` copies keys
holding `undefined` — so an `Update` can blank out a `notNull` column. -/
theorem c10_update_undefined_bypass (Sch : Schema) (k : String) (f : Field)
    (hf : findField Sch k = some f) :
    updateChecker [(k, .vUndefined)] Sch = some [(k, .vUndefined)] ∧
    (truthy f.NotNull = true → updateChecker [(k, .vNull)] Sch = none) ∧
    (∀ (st : TableState) (row : Row), st.schema = Sch → st.Data = [row] →
      (tableUpdate st { Values := [(k, .vUndefined)] }).1 = .ok 1 ∧
      (tableUpdate st { Values := [(k, .vUndefined)] }).2.Data = [objSet row k .vUndefined] ∧
      getVal (objSet row k .vUndefined) k = .vUndefined) := by
  have hcont := findField_mem_keys Sch k f hf
  refine ⟨?_, ?_, ?_⟩
  · simp [updateChecker, updateCheckEntry, hf, hcont]
  · intro ht
    simp [updateChecker, updateCheckEntry, hf, hcont, ht]
  · intro st row hsch hdata
    have hchk : updateChecker [(k, JValue.vUndefined)] st.schema = some [(k, .vUndefined)] := by
      rw [hsch]; simp [updateChecker, updateCheckEntry, hf, hcont]
    have hunk : firstUnknownKey (schemaKeys st.schema) [(k, JValue.vUndefined)] = none := by
      rw [hsch]
      have hd : decide (k ∈ schemaKeys Sch) = true := decide_eq_true hcont
      simp [firstUnknownKey, List.find?_cons, hd]
    have hidx : listIndexOf [row] row = some 0 := by
      simp [listIndexOf, List.findIdx?_cons]
    have hdat2 : ∀ s1 : TableState, s1.Data = [row] →
        s1.Data.set 0 (objAssign (s1.Data.getD 0 []) [(k, JValue.vUndefined)]) =
          [objSet row k .vUndefined] := by
      intro s1 h1
      simp [h1, objAssign]
    simp only [tableUpdate, hunk, hchk, hdata, hidx, safeOffset, safeLimitEnd, jsSlice,
      List.drop, List.foldl_cons, List.foldl_nil]
    by_cases hc : strictEq (getVal ([row].getD 0 []) k) JValue.vUndefined
    · simp only [hc, if_pos, List.foldl_cons, List.foldl_nil]
      exact ⟨rfl, by simp [hdata, objAssign], getVal_objSet_self row k .vUndefined⟩
    · simp only [hc, if_neg, List.foldl_cons, List.foldl_nil]
      refine ⟨rfl, ?_, getVal_objSet_self row k .vUndefined⟩
      have hud : (updateIndexForColumn st IdxOp.upd k 0
          (getVal row k) JValue.vUndefined).Data = [row] := by
        rw [updateIndexForColumn_Data, hdata]
      simp [hud, objAssign]

/-- Witness for C10: on the one-row table `[{A:7}]` with `A: INT notNull`,
the patch `{A: undefined}` is accepted and blanks the column while
`{A: null}` is rejected. -/
theorem c10_update_undefined_bypass_witness :
    updateChecker [("A", .vUndefined)] c1Schema = some [("A", .vUndefined)] ∧
    updateChecker [("A", .vNull)] c1Schema = none ∧
    (tableUpdate c10State { Values := [("A", .vUndefined)] }).1 = .ok 1 ∧
    (tableUpdate c10State { Values := [("A", .vUndefined)] }).2.Data =
      [objSet [("A", jint 7)] "A" .vUndefined] := by
  have h := c10_update_undefined_bypass c1Schema "A" intNN (by decide)
  have h3 := h.2.2 c10State [("A", jint 7)] (by decide) (by decide)
  exact ⟨h.1, h.2.1 (by decide), h3.1, h3.2.1⟩

/-- Columns outside the schema are untouched by the fill loop. -/
theorem getVal_fillFold_not_mem (Values : Row) (k : String) :
    ∀ (Sch : Schema) (acc : Row), k ∉ schemaKeys Sch →
      getVal (Sch.foldl (fillStep Values) acc) k = getVal acc k := by
  intro Sch
  induction Sch with
  | nil => intro acc _; rfl
  | cons kv rest ih =>
      intro acc hk
      have hk0 : kv.1 ≠ k := by
        intro h
        exact hk (by simp [schemaKeys, h])
      have hkrest : k ∉ schemaKeys rest := by
        intro h
        exact hk (by simp [schemaKeys] at h ⊢; exact Or.inr h)
      rw [List.foldl_cons, ih _ hkrest]
      unfold fillStep
      by_cases h1 : hasKey Values kv.1
      · simp [h1, getVal_objSet_ne _ _ _ _ (Ne.symm hk0)]
      · by_cases h2 : !isUndefined kv.2.Default
        · simp [h1, h2, getVal_objSet_ne _ _ _ _ (Ne.symm hk0)]
        · by_cases h3 : kv.2.NotNull = JValue.vBool false
          · simp [h1, h2, h3, getVal_objSet_ne _ _ _ _ (Ne.symm hk0)]
          · simp [h1, h2, h3]

/-- What the fill loop leaves in a schema column (unique keys): the
supplied value, else the non-`undefined` default, else `null` for a column
marked `notNull: false`, else whatever the accumulator held. -/
theorem getVal_fillFold_mem (Values : Row) (k : String) (f : Field) :
    ∀ (Sch : Schema) (acc : Row), (schemaKeys Sch).Nodup → (k, f) ∈ Sch →
      getVal (Sch.foldl (fillStep Values) acc) k =
        (if hasKey Values k then getVal Values k
         else if !isUndefined f.Default then f.Default
         else if f.NotNull = JValue.vBool false then .vNull
         else getVal acc k) := by
  intro Sch
  induction Sch with
  | nil => intro acc _ hmem; cases hmem
  | cons kv rest ih =>
      intro acc hnd hmem
      have hnd0 : (kv.1 :: schemaKeys rest).Nodup := by
        simpa [schemaKeys] using hnd
      have hnd1 : kv.1 ∉ schemaKeys rest := (List.nodup_cons.mp hnd0).1
      have hnd2 : (schemaKeys rest).Nodup := (List.nodup_cons.mp hnd0).2
      rcases List.mem_cons.mp hmem with heq | hmem2
      · have hk : kv.1 = k := by rw [← heq]
        have hf : kv.2 = f := by rw [← heq]
        have hnotmem : k ∉ schemaKeys rest := hk ▸ hnd1
        rw [List.foldl_cons, getVal_fillFold_not_mem Values k rest _ hnotmem]
        unfold fillStep
        rw [hk, hf]
        by_cases h1 : hasKey Values k
        · simp [h1, getVal_objSet_self]
        · by_cases h2 : !isUndefined f.Default
          · simp [h1, h2, getVal_objSet_self]
          · by_cases h3 : f.NotNull = JValue.vBool false
            · simp [h1, h2, h3, getVal_objSet_self]
            · simp [h1, h2, h3]
      · have hkne : kv.1 ≠ k := by
          intro h
          apply hnd1
          rw [h]
          exact List.mem_map_of_mem Prod.fst hmem2
        rw [List.foldl_cons, ih _ hnd2 hmem2]
        have hacc : getVal (fillStep Values acc kv) k = getVal acc k := by
          unfold fillStep
          by_cases h1 : hasKey Values kv.1
          · simp [h1, getVal_objSet_ne _ _ _ _ (Ne.symm hkne)]
          · by_cases h2 : !isUndefined kv.2.Default
            · simp [h1, h2, getVal_objSet_ne _ _ _ _ (Ne.symm hkne)]
            · by_cases h3 : kv.2.NotNull = JValue.vBool false
              · simp [h1, h2, h3, getVal_objSet_ne _ _ _ _ (Ne.symm hkne)]
              · simp [h1, h2, h3]
        rw [hacc]

/-- A successful `InsertChecker` run returns exactly the filled row, with
every schema column having passed its check. -/
theorem insertChecker_some (Values : Row) (Sch : Schema) (row : Row)
    (h : insertChecker Values Sch = some row) :
    row = fillRow Values Sch ∧
    Sch.all (fun kv => checkField kv.2 (getVal row kv.1)) = true := by
  unfold insertChecker at h
  by_cases h1 : Values.any (fun p => !(schemaKeys Sch).contains p.1)
  · rw [if_pos h1] at h; cases h
  · rw [if_neg h1] at h
    by_cases h2 : Sch.all (fun kv => checkField kv.2 (getVal (fillRow Values Sch) kv.1))
    · rw [if_pos h2] at h
      have hrow : row = fillRow Values Sch := (Option.some.injEq _ _).mp h.symm
      exact ⟨hrow, hrow ▸ h2⟩
    · rw [if_neg h2] at h; cases h

/-- A passed check on a truthy-`NotNull` column means a real value that
survived the type and enum checks. -/
theorem checkField_of_notNull (f : Field) (v : JValue)
    (hc : checkField f v = true) (hn : truthy f.NotNull = true) :
    v ≠ .vUndefined ∧ v ≠ .vNull ∧ typeOkB f v = true ∧ enumOkB f v = true := by
  cases v with
  | vUndefined => rw [checkField, hn] at hc; cases hc
  | vNull => rw [checkField, hn] at hc; cases hc
  | vNum n =>
      simp only [checkField, Bool.and_eq_true] at hc
      exact ⟨fun h => JValue.noConfusion h, fun h => JValue.noConfusion h, hc.1, hc.2⟩
  | vStr s =>
      simp only [checkField, Bool.and_eq_true] at hc
      exact ⟨fun h => JValue.noConfusion h, fun h => JValue.noConfusion h, hc.1, hc.2⟩
  | vBool b =>
      simp only [checkField, Bool.and_eq_true] at hc
      exact ⟨fun h => JValue.noConfusion h, fun h => JValue.noConfusion h, hc.1, hc.2⟩
  | vArr xs =>
      simp only [checkField, Bool.and_eq_true] at hc
      exact ⟨fun h => JValue.noConfusion h, fun h => JValue.noConfusion h, hc.1, hc.2⟩
  | vObj fs =>
      simp only [checkField, Bool.and_eq_true] at hc
      exact ⟨fun h => JValue.noConfusion h, fun h => JValue.noConfusion h, hc.1, hc.2⟩

/-- C7: the canonical row is assembled exactly as the spec words it
(supplied value, else declared default, else `null` for a nullable column,
else absent); a returned row gives every truthy-`notNull` column a
non-null, non-absent value passing its type and enum checks; and in
particular a column marked `notNull: false` with no default and no
supplied value comes back holding `null`. -/
theorem c7_validate_insert_assembly :
    (∀ (Values : Row) (Sch : Schema), fillRow Values Sch = specAssembleRow Values Sch) ∧
    (∀ (Values : Row) (Sch : Schema) (row : Row), insertChecker Values Sch = some row →
      ∀ kf ∈ Sch, truthy kf.2.NotNull = true →
        getVal row kf.1 ≠ .vUndefined ∧ getVal row kf.1 ≠ .vNull ∧
        typeOkB kf.2 (getVal row kf.1) = true ∧ enumOkB kf.2 (getVal row kf.1) = true) ∧
    (∀ (Values : Row) (Sch : Schema) (k : String) (f : Field) (row : Row),
      (schemaKeys Sch).Nodup → (k, f) ∈ Sch →
      f.NotNull = .vBool false → f.Default = .vUndefined → hasKey Values k = false →
      insertChecker Values Sch = some row → getVal row k = .vNull) := by
  refine ⟨?_, ?_, ?_⟩
  · intro Values Sch
    unfold fillRow specAssembleRow
    congr 1
    funext acc kv
    simp only [fillStep, suppliedBy, hasDeclaredDefault, isNullableMarked, decide_eq_true_eq]
  · intro Values Sch row h kf hkf hn
    obtain ⟨hrow, hall⟩ := insertChecker_some Values Sch row h
    have hc : checkField kf.2 (getVal row kf.1) = true :=
      List.all_eq_true.mp hall kf hkf
    exact checkField_of_notNull kf.2 (getVal row kf.1) hc hn
  · intro Values Sch k f row hnd hmem hnn hdef hnokey h
    obtain ⟨hrow, _⟩ := insertChecker_some Values Sch row h
    rw [hrow]
    unfold fillRow
    rw [getVal_fillFold_mem Values k f Sch [] hnd hmem]
    simp [hnokey, hdef, isUndefined, hnn, getVal]

/-- Witness for C7: inserting `{ID:1}` into a schema with a nullable,
default-free `Note: TEXT` column yields a row carrying `Note: null`. -/
theorem c7_validate_insert_assembly_witness :
    insertChecker [("ID", jint 1)] c7Schema = some [("ID", jint 1), ("Note", .vNull)] ∧
    getVal [("ID", jint 1), ("Note", .vNull)] "Note" = .vNull := by
  refine ⟨by decide, ?_⟩
  exact c7_validate_insert_assembly.2.2 [("ID", jint 1)] c7Schema "Note" c7NullableText
    [("ID", jint 1), ("Note", .vNull)] (by decide) (by decide) rfl rfl (by decide) (by decide)

theorem jvlConcat_nil : ∀ xs : JValueList, jvlConcat xs .nil = xs
  | .nil => rfl
  | .cons h t => by rw [jvlConcat, jvlConcat_nil t]

theorem appendJVList_concat (v : JValue) (t : JValueList) :
    ∀ xs : JValueList, jvlConcat (appendJVList xs v) t = jvlConcat xs (.cons v t)
  | .nil => rfl
  | .cons h t1 => by
      rw [appendJVList, jvlConcat, appendJVList_concat v t t1]
      rfl

theorem jvlAppendList_concat (l : List JValue) :
    ∀ xs : JValueList, jvlAppendList xs l = jvlConcat xs (ofListJV l) := by
  induction l with
  | nil => intro xs; rw [jvlAppendList, ofListJV, jvlConcat_nil]
  | cons v vs ih =>
      intro xs
      rw [jvlAppendList, ih, ofListJV, appendJVList_concat]

theorem joinMatches_cons (rel : ExtendRel) (r : Row) (rest : List Row) (k : JValue) :
    joinMatches (r :: rest) rel k =
      if getVal r rel.targetColumn = k then r :: joinMatches rest rel k
      else joinMatches rest rel k := by
  by_cases h : getVal r rel.targetColumn = k
  · simp [joinMatches, List.filter_cons, svzEq, h]
  · simp [joinMatches, List.filter_cons, svzEq, h]

/-- In `ONE` mode the join map holds, for each key, the object of the last
row of the referenced table carrying that key. -/
theorem buildJoinMapOne_acc (rel : ExtendRel) (hone : rel.referenceType = "ONE") :
    ∀ (joined : List Row) (m : JoinMap) (k : JValue),
      jmGet (joined.foldl (bjmStep rel) m) k =
        match (joinMatches joined rel k).getLast? with
        | some r => some (objOf r)
        | none => jmGet m k := by
  intro joined
  induction joined with
  | nil => intro m k; simp [joinMatches]
  | cons r rest ih =>
      intro m k
      rw [List.foldl_cons, ih, joinMatches_cons]
      by_cases hk : getVal r rel.targetColumn = k
      · rw [if_pos hk]
        have hstep : jmGet (bjmStep rel m r) k = some (objOf r) := by
          unfold bjmStep
          rw [if_pos hone, hk]
          exact jmGet_jmSet_self m k (objOf r)
        cases hlast : (joinMatches rest rel k).getLast? with
        | some r2 => simp [List.getLast?_cons, hlast]
        | none =>
            have : joinMatches rest rel k = [] := by simpa using hlast
            simp [this, hstep]
      · rw [if_neg hk]
        have hstep : jmGet (bjmStep rel m r) k = jmGet m k := by
          unfold bjmStep
          rw [if_pos hone]
          exact jmGet_jmSet_ne m _ k (objOf r) (fun h => hk h.symm)
        cases hlast : (joinMatches rest rel k).getLast? with
        | some r2 => simp [hlast]
        | none => simp [hlast, hstep]

/-- In `MANY` mode, a key whose bucket is already an array collects the
objects of all further matching rows at its end, in table order. -/
theorem buildJoinMapMany_some_acc (rel : ExtendRel) (hm : rel.referenceType ≠ "ONE") :
    ∀ (joined : List Row) (m : JoinMap) (k : JValue) (xs : JValueList),
      jmGet m k = some (.vArr xs) →
      jmGet (joined.foldl (bjmStep rel) m) k =
        some (.vArr (jvlAppendList xs ((joinMatches joined rel k).map objOf))) := by
  intro joined
  induction joined with
  | nil =>
      intro m k xs hg
      simp [joinMatches, jvlAppendList, hg]
  | cons r rest ih =>
      intro m k xs hg
      rw [List.foldl_cons, joinMatches_cons]
      by_cases hk : getVal r rel.targetColumn = k
      · rw [if_pos hk]
        have hstep : jmGet (bjmStep rel m r) k =
            some (.vArr (appendJVList xs (objOf r))) := by
          unfold bjmStep
          rw [if_neg hm, hk, hg]
          exact jmGet_jmSet_self m k _
        rw [ih _ _ _ hstep]
        simp [jvlAppendList]
      · rw [if_neg hk]
        have hstep : jmGet (bjmStep rel m r) k = jmGet m k := by
          unfold bjmStep
          rw [if_neg hm]
          cases hgk : jmGet m (getVal r rel.targetColumn) with
          | none => exact jmGet_jmSet_ne m _ k _ (fun h => hk h.symm)
          | some v =>
              cases v with
              | vArr ys => exact jmGet_jmSet_ne m _ k _ (fun h => hk h.symm)
              | vUndefined => rfl
              | vNull => rfl
              | vNum n => rfl
              | vStr s => rfl
              | vBool b => rfl
              | vObj fs => rfl
        exact ih _ _ _ (hstep.trans hg)

/-- In `MANY` mode, starting from a key with no bucket, the final bucket is
the array of all matching rows — absent (hence attached as `null`) when no
row matches. -/
theorem buildJoinMapMany_none_acc (rel : ExtendRel) (hm : rel.referenceType ≠ "ONE") :
    ∀ (joined : List Row) (m : JoinMap) (k : JValue),
      jmGet m k = none →
      jmGet (joined.foldl (bjmStep rel) m) k =
        (if joinMatches joined rel k = [] then none
         else some (.vArr (ofListJV ((joinMatches joined rel k).map objOf)))) := by
  intro joined
  induction joined with
  | nil =>
      intro m k hg
      simp [joinMatches, hg]
  | cons r rest ih =>
      intro m k hg
      rw [List.foldl_cons, joinMatches_cons]
      by_cases hk : getVal r rel.targetColumn = k
      · rw [if_pos hk]
        have hstep : jmGet (bjmStep rel m r) k =
            some (.vArr (.cons (objOf r) .nil)) := by
          unfold bjmStep
          rw [if_neg hm, hk, hg]
          exact jmGet_jmSet_self m k _
        rw [buildJoinMapMany_some_acc rel hm rest _ k _ hstep]
        rw [jvlAppendList_concat]
        simp [jvlConcat, ofListJV]
      · rw [if_neg hk]
        have hstep : jmGet (bjmStep rel m r) k = jmGet m k := by
          unfold bjmStep
          rw [if_neg hm]
          cases hgk : jmGet m (getVal r rel.targetColumn) with
          | none => exact jmGet_jmSet_ne m _ k _ (fun h => hk h.symm)
          | some v =>
              cases v with
              | vArr ys => exact jmGet_jmSet_ne m _ k _ (fun h => hk h.symm)
              | vUndefined => rfl
              | vNull => rfl
              | vNum n => rfl
              | vStr s => rfl
              | vBool b => rfl
              | vObj fs => rfl
        exact ih _ _ (hstep.trans hg)

/-- C5: an `Extend` step for a table `T` with a precomputed relationship
attaches, to every result row `r`, the key `"$" + T` holding: for
cardinality `ONE` the (last-, hence when unique the single-) matching row
of `T` whose join column equals `r`'s local join value, or `null` when no
row matches; for `MANY` the array of all matching rows in table order, or
`null` when none match. -/
theorem c5_extend_attachment (st : TableState) (tname : String) (rel : ExtendRel)
    (joined result : List Row)
    (hrel : relsGet st.rels tname = some rel)
    (href : tablesRefGet st.tablesRef tname = some joined) :
    extendStep st result tname = .ok (result.map (fun old =>
      objSet old ("$" ++ tname)
        (if rel.referenceType = "ONE" then
          match (joinMatches joined rel (getVal old rel.myColumn)).getLast? with
          | some r => objOf r
          | none => .vNull
         else
          if joinMatches joined rel (getVal old rel.myColumn) = [] then .vNull
          else .vArr (ofListJV ((joinMatches joined rel (getVal old rel.myColumn)).map objOf))))) := by
  simp only [extendStep, hrel, href]
  congr 1
  apply List.map_congr_left
  intro old _
  congr 1
  by_cases hone : rel.referenceType = "ONE"
  · rw [if_pos hone]
    have := buildJoinMapOne_acc rel hone joined [] (getVal old rel.myColumn)
    rw [buildJoinMap, this]
    cases hlast : (joinMatches joined rel (getVal old rel.myColumn)).getLast? with
    | some r => simp
    | none => simp [jmGet]
  · rw [if_neg hone]
    have := buildJoinMapMany_none_acc rel hone joined [] (getVal old rel.myColumn)
      (by simp [jmGet])
    rw [buildJoinMap, this]
    by_cases hemp : joinMatches joined rel (getVal old rel.myColumn) = []
    · simp [hemp]
    · simp [hemp]

/-- Witness for C5, the spec's join example: `Users.Get({Extend:["Profile"]})`
attaches the single matching Profile row to the user with `ID:1` and `null`
to the user with `ID:2`. -/
theorem c5_extend_attachment_witness :
    extendStep c5State c5State.Data "Profile" =
      .ok [[("ID", jint 1), ("$Profile", objOf profileRow)],
           [("ID", jint 2), ("$Profile", .vNull)]] := by
  rw [c5_extend_attachment c5State "Profile" profileRel [profileRow] c5State.Data
    (by decide) (by decide)]
  decide

theorem dedupAux_sublist : ∀ (l : List Row) (seen : List String),
    List.Sublist (dedupAux l seen) l := by
  intro l
  induction l with
  | nil => intro seen; simp [dedupAux]
  | cons r rs ih =>
      intro seen
      by_cases hc : serializeRow r ∈ seen
      · have hb : seen.contains (serializeRow r) = true := List.elem_eq_true_of_mem hc
        simp only [dedupAux, hb, if_pos]
        exact (ih seen).cons r
      · have hb : seen.contains (serializeRow r) = false := by
          cases hcc : seen.contains (serializeRow r) with
          | true => exact absurd (List.mem_of_elem_eq_true hcc) hc
          | false => rfl
        simp only [dedupAux, hb]
        exact (ih _).cons₂ r

theorem dedupAux_not_seen : ∀ (l : List Row) (seen : List String) (r : Row),
    r ∈ dedupAux l seen → serializeRow r ∉ seen := by
  intro l
  induction l with
  | nil => intro seen r hr; simp [dedupAux] at hr
  | cons r0 rs ih =>
      intro seen r hr
      by_cases hc : serializeRow r0 ∈ seen
      · have hb : seen.contains (serializeRow r0) = true := List.elem_eq_true_of_mem hc
        simp only [dedupAux, hb, if_pos] at hr
        exact ih seen r hr
      · have hb : seen.contains (serializeRow r0) = false := by
          cases hcc : seen.contains (serializeRow r0) with
          | true => exact absurd (List.mem_of_elem_eq_true hcc) hc
          | false => rfl
        simp only [dedupAux, hb] at hr
        rcases List.mem_cons.mp hr with heq | hmem
        · rw [heq]; exact hc
        · have := ih _ r hmem
          intro hin
          exact this (List.mem_cons_of_mem _ hin)

theorem dedupAux_pairwise : ∀ (l : List Row) (seen : List String),
    (dedupAux l seen).Pairwise (fun a b => serializeRow a ≠ serializeRow b) := by
  intro l
  induction l with
  | nil => intro seen; simp [dedupAux]
  | cons r0 rs ih =>
      intro seen
      by_cases hc : serializeRow r0 ∈ seen
      · have hb : seen.contains (serializeRow r0) = true := List.elem_eq_true_of_mem hc
        simp only [dedupAux, hb, if_pos]
        exact ih seen
      · have hb : seen.contains (serializeRow r0) = false := by
          cases hcc : seen.contains (serializeRow r0) with
          | true => exact absurd (List.mem_of_elem_eq_true hcc) hc
          | false => rfl
        simp only [dedupAux, hb]
        refine List.Pairwise.cons ?_ (ih _)
        intro b hb2 heq
        have := dedupAux_not_seen rs _ b hb2
        exact this (heq ▸ List.mem_cons_self _ _)

theorem dedupAux_covers : ∀ (l : List Row) (seen : List String) (r : Row), r ∈ l →
    serializeRow r ∈ seen ∨ ∃ r2 ∈ dedupAux l seen, serializeRow r2 = serializeRow r := by
  intro l
  induction l with
  | nil => intro seen r hr; cases hr
  | cons r0 rs ih =>
      intro seen r hr
      by_cases hc : serializeRow r0 ∈ seen
      · have hb : seen.contains (serializeRow r0) = true := List.elem_eq_true_of_mem hc
        simp only [dedupAux, hb, if_pos]
        rcases List.mem_cons.mp hr with heq | hmem
        · exact Or.inl (heq ▸ hc)
        · exact ih seen r hmem
      · have hb : seen.contains (serializeRow r0) = false := by
          cases hcc : seen.contains (serializeRow r0) with
          | true => exact absurd (List.mem_of_elem_eq_true hcc) hc
          | false => rfl
        simp only [dedupAux, hb]
        rcases List.mem_cons.mp hr with heq | hmem
        · exact Or.inr ⟨r0, List.mem_cons_self _ _, by rw [heq]⟩
        · rcases ih _ r hmem with hseen | ⟨r2, hr2, hser⟩
          · rcases List.mem_cons.mp hseen with hkey | hold
            · exact Or.inr ⟨r0, List.mem_cons_self _ _, hkey.symm⟩
            · exact Or.inl hold
          · exact Or.inr ⟨r2, List.mem_cons_of_mem _ hr2, hser⟩

theorem dedupAux_first : ∀ (l : List Row) (seen : List String) (r2 : Row),
    r2 ∈ dedupAux l seen →
    ∃ l1 l2, l = l1 ++ r2 :: l2 ∧
      ∀ r1 ∈ l1, serializeRow r1 ≠ serializeRow r2 ∨ serializeRow r1 ∈ seen := by
  intro l
  induction l with
  | nil => intro seen r2 hr; simp [dedupAux] at hr
  | cons r0 rs ih =>
      intro seen r2 hr
      by_cases hc : serializeRow r0 ∈ seen
      · have hb : seen.contains (serializeRow r0) = true := List.elem_eq_true_of_mem hc
        simp only [dedupAux, hb, if_pos] at hr
        obtain ⟨l1, l2, hsplit, hpre⟩ := ih seen r2 hr
        refine ⟨r0 :: l1, l2, by rw [hsplit]; rfl, ?_⟩
        intro r1 hr1
        rcases List.mem_cons.mp hr1 with heq | hmem
        · exact Or.inr (heq ▸ hc)
        · exact hpre r1 hmem
      · have hb : seen.contains (serializeRow r0) = false := by
          cases hcc : seen.contains (serializeRow r0) with
          | true => exact absurd (List.mem_of_elem_eq_true hcc) hc
          | false => rfl
        simp only [dedupAux, hb] at hr
        rcases List.mem_cons.mp hr with heq | hmem
        · exact ⟨[], rs, by rw [heq]; rfl, by intro r1 hr1; cases hr1⟩
        · obtain ⟨l1, l2, hsplit, hpre⟩ := ih _ r2 hmem
          have hnot := dedupAux_not_seen rs _ r2 hmem
          have hkey : serializeRow r2 ≠ serializeRow r0 := by
            intro h
            exact hnot (h ▸ List.mem_cons_self _ _)
          refine ⟨r0 :: l1, l2, by rw [hsplit]; rfl, ?_⟩
          intro r1 hr1
          rcases List.mem_cons.mp hr1 with heq1 | hmem1
          · exact Or.inl (heq1 ▸ fun h => hkey h.symm)
          · rcases hpre r1 hmem1 with hne | hin
            · exact Or.inl hne
            · rcases List.mem_cons.mp hin with hk | hold
              · exact Or.inl (hk ▸ fun h => hkey h.symm)
              · exact Or.inr hold

theorem projectRow_fold_congr (r1 r2 : Row) :
    ∀ (cols : List String) (acc : Row), (∀ c ∈ cols, getVal r1 c = getVal r2 c) →
      cols.foldl (fun acc c => objSet acc c (getVal r1 c)) acc =
        cols.foldl (fun acc c => objSet acc c (getVal r2 c)) acc := by
  intro cols
  induction cols with
  | nil => intro acc _; rfl
  | cons c cs ih =>
      intro acc h
      rw [List.foldl_cons, List.foldl_cons, h c (List.mem_cons_self _ _)]
      exact ih _ (fun c2 hc2 => h c2 (List.mem_cons_of_mem _ hc2))

/-- C8: with both a column projection and `Unique` requested, the dedup of
`Get` runs on the projected rows: it keeps a subsequence of them in order,
no two survivors share a serialized form, every serialized form that
occurred survives in exactly-once form, the survivor of each form is its
first occurrence, and two rows agreeing on every projected column have
identical projections (hence collapse) even if they differ elsewhere. -/
theorem c8_unique_post_projection (st : TableState) (opts : QueryOptions)
    (cols : List String) (hc : opts.Columns = some cols) (hne : cols ≠ [])
    (hu : opts.Unique = true) :
    uniqueStage opts.Unique (projectStage opts.Columns (matchStage st opts.Matches)) =
      dedupBySerialize ((matchStage st opts.Matches).map (projectRow cols)) ∧
    (∀ r1 r2 : Row, (∀ c ∈ cols, getVal r1 c = getVal r2 c) →
      projectRow cols r1 = projectRow cols r2) ∧
    (∀ l : List Row, List.Sublist (dedupBySerialize l) l) ∧
    (∀ l : List Row,
      (dedupBySerialize l).Pairwise (fun a b => serializeRow a ≠ serializeRow b)) ∧
    (∀ (l : List Row) (r : Row), r ∈ l →
      ∃ r2 ∈ dedupBySerialize l, serializeRow r2 = serializeRow r) ∧
    (∀ (l : List Row) (r2 : Row), r2 ∈ dedupBySerialize l →
      ∃ l1 l2, l = l1 ++ r2 :: l2 ∧ ∀ r1 ∈ l1, serializeRow r1 ≠ serializeRow r2) := by
  refine ⟨?_, ?_, ?_, ?_, ?_, ?_⟩
  · rw [hc, hu]
    have hie : cols.isEmpty = false := by
      cases cols with
      | nil => exact absurd rfl hne
      | cons a as => rfl
    simp [uniqueStage, projectStage, hie, dedupBySerialize]
  · intro r1 r2 h
    exact projectRow_fold_congr r1 r2 cols [] h
  · intro l
    exact dedupAux_sublist l []
  · intro l
    exact dedupAux_pairwise l []
  · intro l r hr
    rcases dedupAux_covers l [] r hr with hseen | hex
    · cases hseen
    · exact hex
  · intro l r2 hr2
    obtain ⟨l1, l2, hsplit, hpre⟩ := dedupAux_first l [] r2 hr2
    refine ⟨l1, l2, hsplit, ?_⟩
    intro r1 hr1
    rcases hpre r1 hr1 with hne2 | hin
    · exact hne2
    · cases hin

/-- Witness for C8: projecting `[{A:1,B:1},{A:1,B:2}]` onto `A` with
`Unique` collapses the two rows (which differ only in the non-projected
`B`) to the first one. -/
theorem c8_unique_post_projection_witness :
    uniqueStage c8Opts.Unique (projectStage c8Opts.Columns (matchStage c8State c8Opts.Matches)) =
      dedupBySerialize ((matchStage c8State c8Opts.Matches).map (projectRow ["A"])) ∧
    dedupBySerialize ((matchStage c8State c8Opts.Matches).map (projectRow ["A"])) =
      [[("A", jint 1)]] := by
  refine ⟨(c8_unique_post_projection c8State c8Opts ["A"] rfl (by decide) rfl).1, by decide⟩

end ProjectDB
